import Mathlib

/-!
Verification development for the Script-Aligner offline alignment and
text-normalization engine (src/services/offlineService.ts, src/utils/itn.ts,
src/utils/phonetics.ts).  Strings are embedded as `List Char`; each JavaScript
`String.replace(regex, …)` call is embedded as a left-to-right scanner that,
at each position, either consumes a match (resuming after its end, as a global
JS regex does) or keeps one character and moves on.
-/

/-- JS whitespace class `\s` (WhiteSpace plus LineTerminator code points). -/
def isJsWs (c : Char) : Bool :=
  c == ' ' || c == '\t' || c == '\n' || c == '\r' ||
  c.toNat == 11 || c.toNat == 12 ||
  c.toNat == 0xa0 || c.toNat == 0x1680 ||
  (Nat.ble 0x2000 c.toNat && Nat.ble c.toNat 0x200a) ||
  c.toNat == 0x2028 || c.toNat == 0x2029 ||
  c.toNat == 0x202f || c.toNat == 0x205f || c.toNat == 0x3000 || c.toNat == 0xfeff

/-- JS line terminators (what `^`/`$` with the `m` flag anchor on, and what `.` excludes). -/
def isLineTerm (c : Char) : Bool :=
  c == '\n' || c == '\r' || c.toNat == 0x2028 || c.toNat == 0x2029

def isAsciiLetter (c : Char) : Bool :=
  ('a' ≤ c && c ≤ 'z') || ('A' ≤ c && c ≤ 'Z')

def isDigitChar (c : Char) : Bool := '0' ≤ c && c ≤ '9'

/-- JS `\w` word-character class. -/
def isWordChar (c : Char) : Bool := isAsciiLetter c || isDigitChar c || c == '_'

/-- ASCII lowering (the inputs under study are ASCII, where JS `toLowerCase` agrees). -/
def toLowerJs (c : Char) : Char :=
  if 'A' ≤ c && c ≤ 'Z' then Char.ofNat (c.toNat + 32) else c

def startsWithL (pat s : List Char) : Bool := s.take pat.length == pat

/-- Case-insensitive prefix test (`pat` given in lowercase). -/
def ciStartsWith (pat s : List Char) : Bool := (s.take pat.length).map toLowerJs == pat

def runLen (p : Char → Bool) (l : List Char) : Nat := (l.takeWhile p).length

def wsRun (l : List Char) : Nat := runLen isJsWs l

def digitRun (l : List Char) : Nat := runLen isDigitChar l

/-- `[n, n-1, …, 0]`: the order in which a greedy, backtracking quantifier tries lengths. -/
def downFrom (n : Nat) : List Nat := (List.range (n + 1)).reverse

/-- Generic embedding of a global JS `String.replace`.  `tryM` inspects the previous
character (for `^`-anchoring and `\b`) and the rest of the input, and returns the
total match length together with the replacement text.  On a match the scanner
emits the replacement and resumes after the match, exactly like a `g`-flagged
regex; `skip` counts match characters still to be consumed. -/
def jsScan (tryM : Option Char → List Char → Option (Nat × List Char)) :
    Nat → Option Char → List Char → List Char
  | _, _, [] => []
  | skip + 1, _, c :: cs => jsScan tryM skip (some c) cs
  | 0, prev, c :: cs =>
    match tryM prev (c :: cs) with
    | some (k, rep) => rep ++ jsScan tryM (k - 1) (some c) cs
    | none => c :: jsScan tryM 0 (some c) cs

def jsReplace (tryM : Option Char → List Char → Option (Nat × List Char))
    (l : List Char) : List Char := jsScan tryM 0 none l

/-- `^` matches at the start of input or right after a line terminator (`m` flag). -/
def atLineStartP : Option Char → Bool
  | none => true
  | some c => isLineTerm c

/-! ### cleanText (offlineService.ts, lines 22-58) -/

/-- Match for `(https?:\/\/[^\s]+)` at the current position. -/
def matchHttp (s : List Char) : Option Nat :=
  let k : Option Nat :=
    if startsWithL "https://".data s then some 8
    else if startsWithL "http://".data s then some 7
    else none
  k.bind fun k =>
    let r := runLen (fun c => !isJsWs c) (s.drop k)
    if r == 0 then none else some (k + r)

/-- Match for `(www\.[^\s]+)` at the current position. -/
def matchWww (s : List Char) : Option Nat :=
  if startsWithL "www.".data s then
    let r := runLen (fun c => !isJsWs c) (s.drop 4)
    if r == 0 then none else some (4 + r)
  else none

def isOpenB (c : Char) : Bool := c == '[' || c == '(' || c == Char.ofNat 123 || c == '<'

def isCloseB (c : Char) : Bool := c == ']' || c == ')' || c == Char.ofNat 125 || c == '>'

/-- Index of the first closing delimiter reachable without crossing a line
terminator (the non-greedy `.*?` of `[\[\(\{<].*?[\]\)\}>]` stops at the first
closing-class character; `.` cannot cross a line terminator). -/
def findCloseB : List Char → Option Nat
  | [] => none
  | c :: cs =>
    if isCloseB c then some 0
    else if isLineTerm c then none
    else (findCloseB cs).map (· + 1)

def matchBracket : List Char → Option Nat
  | [] => none
  | c :: cs => if isOpenB c then (findCloseB cs).map (fun j => j + 2) else none

/-- Match for `^(INT\.|EXT\.|SCENE\s|CUT TO:|FADE IN:|CAMERA|ANGLE).*` (flags `gmi`):
one of the markers at a line start, then greedy `.*` to the end of the line. -/
def matchScene (s : List Char) : Option Nat :=
  let alt : Option Nat :=
    if ciStartsWith "int.".data s then some 4
    else if ciStartsWith "ext.".data s then some 4
    else if ciStartsWith "scene".data s && isJsWs (s.getD 5 'x') then some 6
    else if ciStartsWith "cut to:".data s then some 7
    else if ciStartsWith "fade in:".data s then some 8
    else if ciStartsWith "camera".data s then some 6
    else if ciStartsWith "angle".data s then some 5
    else none
  alt.map fun m => m + runLen (fun c => !isLineTerm c) (s.drop m)

/-- The name class `[A-Za-z0-9\s\.\(\)\-]` of the speaker-label regex. -/
def speakerNameChar (c : Char) : Bool :=
  isAsciiLetter c || isDigitChar c || isJsWs c || c == '.' || c == '(' || c == ')' || c == '-'

/-- Match for `^\s*(?:>|-)?\s*([A-Za-z0-9\s\.\(\)\-]{1,30})(?::|\s+-)\s+` (flags `gm`)
at a line start.  Each quantifier's candidate lengths are tried in the greedy
backtracking order (longest first, later components varying fastest). -/
def matchSpeaker (s : List Char) : Option Nat :=
  (downFrom (wsRun s)).findSome? fun a =>
    let s1 := s.drop a
    let bopts : List Nat :=
      match s1 with
      | '>' :: _ => [1, 0]
      | '-' :: _ => [1, 0]
      | _ => [0]
    bopts.findSome? fun b =>
      let s2 := s1.drop b
      (downFrom (wsRun s2)).findSome? fun c =>
        let s3 := s2.drop c
        let maxD := min 30 (runLen speakerNameChar s3)
        (downFrom maxD).findSome? fun d =>
          if d == 0 then none
          else
            let s4 := s3.drop d
            let eCands : List Nat :=
              (match s4 with | ':' :: _ => [1] | _ => []) ++
              ((downFrom (wsRun s4)).filterMap fun e =>
                if e != 0 && s4.getD e ' ' == '-' then some (e + 1) else none)
            eCands.findSome? fun e =>
              let s5 := s4.drop e
              let f := wsRun s5
              if f == 0 then none else some (a + b + c + d + e + f)

/-- Match for the trailing `\s*$` of a line-anchored regex: greedily consume
whitespace, backtracking until the position is the end of input or sits right
before a line terminator. -/
def matchTrailWsEnd (s : List Char) : Option Nat :=
  (downFrom (wsRun s)).findSome? fun k =>
    if s.drop k == [] || isLineTerm (s.getD k 'x') then some k else none

/-- Match for `^\s*unknow[n]?\s*$` (flags `gmi`) at a line start. -/
def matchUnknowLine (s : List Char) : Option Nat :=
  let a := wsRun s
  let s1 := s.drop a
  if ciStartsWith "unknow".data s1 then
    let cands : List Nat :=
      match s1.drop 6 with
      | c :: _ => if toLowerJs c == 'n' then [7, 6] else [6]
      | [] => [6]
    cands.findSome? fun m => (matchTrailWsEnd (s1.drop m)).map fun k => a + m + k
  else none

/-- Match for `\bunknow\b` (flags `gi`). -/
def matchUnknowWord (prev : Option Char) (s : List Char) : Option Nat :=
  let bOk := match prev with
    | none => true
    | some p => !isWordChar p
  if bOk && ciStartsWith "unknow".data s && !isWordChar (s.getD 6 ' ') then some 6 else none

/-- Match for `^\s*\d+\s*$` (flags `gm`) at a line start. -/
def matchDigitLine (s : List Char) : Option Nat :=
  let a := wsRun s
  let s1 := s.drop a
  let d := digitRun s1
  if d == 0 then none
  else (matchTrailWsEnd (s1.drop d)).map fun k => a + d + k

def removeHttp (l : List Char) : List Char :=
  jsReplace (fun _ s => (matchHttp s).map (fun k => (k, []))) l

def removeWww (l : List Char) : List Char :=
  jsReplace (fun _ s => (matchWww s).map (fun k => (k, []))) l

def removeBrackets (l : List Char) : List Char :=
  jsReplace (fun _ s => (matchBracket s).map (fun k => (k, []))) l

def removeScene (l : List Char) : List Char :=
  jsReplace (fun prev s =>
    if atLineStartP prev then (matchScene s).map (fun k => (k, [])) else none) l

def removeSpeaker (l : List Char) : List Char :=
  jsReplace (fun prev s =>
    if atLineStartP prev then (matchSpeaker s).map (fun k => (k, [])) else none) l

def removeUnknowLines (l : List Char) : List Char :=
  jsReplace (fun prev s =>
    if atLineStartP prev then (matchUnknowLine s).map (fun k => (k, [])) else none) l

def removeUnknowWord (l : List Char) : List Char :=
  jsReplace (fun prev s => (matchUnknowWord prev s).map (fun k => (k, []))) l

def removeDigitLines (l : List Char) : List Char :=
  jsReplace (fun prev s =>
    if atLineStartP prev then (matchDigitLine s).map (fun k => (k, [])) else none) l

/-- `replace(/\s+/g, ' ')`: every maximal whitespace run becomes one space. -/
def squeezeAux : Bool → List Char → List Char
  | _, [] => []
  | prevWs, c :: cs =>
    if isJsWs c then
      if prevWs then squeezeAux true cs else ' ' :: squeezeAux true cs
    else c :: squeezeAux false cs

def squeezeWs (l : List Char) : List Char := squeezeAux false l

/-- JS `String.trim()`. -/
def trimJs (l : List Char) : List Char :=
  ((l.dropWhile isJsWs).reverse.dropWhile isJsWs).reverse

def collapseWs (l : List Char) : List Char := trimJs (squeezeWs l)

/-- `cleanText` (offlineService.ts lines 22-58): the seven numbered cleaning rules,
applied in source order. -/
def cleanText (text : List Char) : List Char :=
  collapseWs (removeDigitLines (removeUnknowWord (removeUnknowLines
    (removeSpeaker (removeScene (removeBrackets (removeWww (removeHttp text))))))))

example : cleanText "ww[z]w.x".data = "www.x".data := by decide
example : cleanText "www.x".data = [] := by decide
example : cleanText "hello   world".data = "hello world".data := by decide
example : cleanText "John: hi there".data = "hi there".data := by decide
example : cleanText "INT. HOUSE\nhi".data = "hi".data := by decide
example : cleanText "a [Shot 1] b (Laughs) c".data = "a b c".data := by decide
example : cleanText "12\nok".data = "ok".data := by decide
example : cleanText "see http://x.co/a now".data = "see now".data := by decide
example : cleanText "Unknown\nfine".data = "fine".data := by decide
example : cleanText "an unknow word".data = "an word".data := by decide

/-! ### Phonetic normalization (src/utils/phonetics.ts) -/

/-- Global literal-substring replacement (`replace(/pat/g, rep)` with a literal pattern). -/
def replaceAllL (pat rep : List Char) (l : List Char) : List Char :=
  jsReplace (fun _ s => if pat ≠ [] && startsWithL pat s then some (pat.length, rep) else none) l

/-- The ordered character/digraph rewrite rules `PHONETIC_REPLACEMENTS`
(phonetics.ts lines 504-536), up to but excluding the two end-anchored rules. -/
def PHONETIC_REPLACEMENTS_SUBS : List (List Char × List Char) :=
  [("v".data, "w".data), ("ph".data, "f".data), ("th".data, "d".data),
   ("bh".data, "b".data), ("dh".data, "d".data), ("gh".data, "g".data),
   ("kh".data, "k".data), ("sh".data, "s".data), ("ch".data, "c".data),
   ("z".data, "j".data), ("ee".data, "i".data), ("oo".data, "u".data),
   ("aa".data, "a".data), ("ai".data, "e".data), ("au".data, "o".data)]

/-- `replace(/c$/g, '')`: drop a final occurrence of `c`. -/
def dropFinal (c : Char) (l : List Char) : List Char :=
  if l.getLast? == some c then l.dropLast else l

/-- `PHONETIC_WORD_MAP` (phonetics.ts lines 542-567). -/
def PHONETIC_WORD_MAP : List (List Char × List Char) :=
  [("bill".data, "bil".data), ("school".data, "skul".data), ("cool".data, "kul".data),
   ("fool".data, "ful".data), ("usko".data, "usko".data), ("mujhe".data, "mujhe".data),
   ("hai".data, "he".data), ("hain".data, "hen".data), ("ho".data, "ho".data),
   ("hoon".data, "hun".data), ("main".data, "men".data), ("mein".data, "men".data),
   ("mai".data, "me".data), ("tum".data, "tum".data), ("aap".data, "ap".data),
   ("woh".data, "wo".data), ("yeh".data, "ye".data)]

/-- The punctuation class stripped by `normalizeWord` (phonetics.ts line 580). -/
def PUNCT_STRIP : List Char :=
  ['.', ',', '/', '#', '!', '$', '%', '^', '&', '*', ';', ':',
   Char.ofNat 123, Char.ofNat 125, '=', '-', '_', Char.ofNat 96, '~',
   '(', ')', '[', ']', Char.ofNat 34, Char.ofNat 39, '?']

/-- `normalizeWord` (phonetics.ts lines 576-593). -/
def normalizeWord (word : List Char) : List Char :=
  let clean := (word.map toLowerJs).filter (fun c => !PUNCT_STRIP.contains c)
  match List.lookup clean PHONETIC_WORD_MAP with
  | some v => v
  | none =>
    let l1 := PHONETIC_REPLACEMENTS_SUBS.foldl
      (fun acc (pr : List Char × List Char) => replaceAllL pr.1 pr.2 acc) clean
    replaceAllL "y".data "j".data (dropFinal 'a' (dropFinal 'h' l1))

/-- `findPhoneticMatch` (phonetics.ts lines 610-623): first dictionary key whose
normalized form equals the normalized input. -/
def findPhoneticMatch (word : List Char) (dictionary : List (List Char × List Char)) :
    Option (List Char) :=
  (dictionary.find? (fun kv => normalizeWord kv.1 == normalizeWord word)).map (·.1)

/-! ### Word-bank correction pass (offlineService.ts lines 99-129)

`WORD_BANK` lives in src/utils/wordBank.ts which is not part of the sources at
hand; it is a finite map from lowercase token to replacement and is treated as
an explicit parameter throughout (modelled from the spec, §2 Dictionary). -/

/-- `text.split(/\b/)`: maximal runs of word characters alternating with maximal
runs of non-word characters. -/
def splitB : List Char → List (List Char)
  | [] => []
  | c :: cs =>
    match splitB cs with
    | [] => [[c]]
    | [] :: gs => [c] :: [] :: gs
    | (d :: g) :: gs =>
      if isWordChar c == isWordChar d then (c :: d :: g) :: gs
      else [c] :: (d :: g) :: gs

/-- JS truthiness lookup `map[key]`: an entry whose value is the empty string is
falsy and behaves as missing. -/
def lookupTruthy (bank : List (List Char × List Char)) (key : List Char) :
    Option (List Char) :=
  match List.lookup key bank with
  | some v => if v == [] then none else some v
  | none => none

/-- `{ ...WORD_BANK, ...customBank }`: keys of the base bank in order with
overridden values, followed by the custom keys not present in the base bank. -/
def mergeBanks (base custom : List (List Char × List Char)) :
    List (List Char × List Char) :=
  (base.map fun kv => (kv.1, ((List.lookup kv.1 custom).getD kv.2))) ++
    custom.filter fun kv => List.lookup kv.1 base == none

/-- The per-token correction of `applyWordBank`: custom bank first, then the
built-in bank, then (for alphabetic tokens longer than 2) the phonetic fallback
against the merged bank. -/
def correctToken (WORD_BANK customBank merged : List (List Char × List Char))
    (token : List Char) : List Char :=
  let lower := token.map toLowerJs
  match lookupTruthy customBank lower with
  | some v => v
  | none =>
    match lookupTruthy WORD_BANK lower with
    | some v => v
    | none =>
      if 2 < token.length && token.all isAsciiLetter then
        match findPhoneticMatch lower merged with
        | some key => (List.lookup key merged).getD []
        | none => token
      else token

/-- `applyWordBank` (offlineService.ts lines 99-129). -/
def applyWordBank (WORD_BANK customBank : List (List Char × List Char))
    (text : List Char) : List Char :=
  let mergedBank := mergeBanks WORD_BANK customBank
  ((splitB text).map (correctToken WORD_BANK customBank mergedBank)).flatten

example : splitB "a!b cd".data = ["a".data, "!".data, "b".data, " ".data, "cd".data] := by decide
example : applyWordBank [("foo".data, "bar".data)] [] "a foo b".data = "a bar b".data := by decide
example : applyWordBank [("foo".data, "bar".data)] [("foo".data, "baz".data)]
    "foo".data = "baz".data := by decide
example : applyWordBank [("foo".data, "bar".data)] [("foo".data, [])]
    "foo".data = "bar".data := by decide
example : normalizeWord "wideo".data = normalizeWord "video".data := by decide

/-! ### Caption parsing and serialization (offlineService.ts lines 63-91) -/

structure SrtBlock where
  id : List Char
  time : List Char
  text : List Char
  cleanWords : List (List Char)
deriving DecidableEq

/-- `replace(/\r\n/g, '\n')`. -/
def normalizeCrlf (l : List Char) : List Char :=
  jsReplace (fun _ s => if startsWithL "\r\n".data s then some (2, "\n".data) else none) l

/-- `split(/\n\n+/)`: split on maximal runs of two or more newlines. -/
def splitBlankAux : Nat → List Char → List Char → List (List Char)
  | _, acc, [] => [acc.reverse]
  | 0, acc, rest => [acc.reverse ++ rest]
  | fuel + 1, acc, '\n' :: '\n' :: rest =>
    acc.reverse :: splitBlankAux fuel [] (rest.dropWhile (· == '\n'))
  | fuel + 1, acc, c :: rest => splitBlankAux fuel (c :: acc) rest

def splitOnBlankLines (l : List Char) : List (List Char) := splitBlankAux l.length [] l

/-- `split('\n')`. -/
def splitLines : List Char → List (List Char)
  | [] => [[]]
  | '\n' :: rest => [] :: splitLines rest
  | c :: rest =>
    match splitLines rest with
    | [] => [[c]]
    | p :: ps => (c :: p) :: ps

/-- `match(/\S+/g) || []`: the maximal non-whitespace runs. -/
def nonWsRunsAux (cur : List Char) : List Char → List (List Char)
  | [] => if cur == [] then [] else [cur.reverse]
  | c :: cs =>
    if isJsWs c then
      if cur == [] then nonWsRunsAux [] cs else cur.reverse :: nonWsRunsAux [] cs
    else nonWsRunsAux (c :: cur) cs

def nonWsRuns (l : List Char) : List (List Char) := nonWsRunsAux [] l

/-- `trim().split(/\s+/)` as used for `cleanWords`: JS split of an empty string
yields one empty piece. -/
def jsTrimSplitWs (l : List Char) : List (List Char) :=
  let t := trimJs l
  if t == [] then [[]] else nonWsRuns t

def joinSpace (ls : List (List Char)) : List Char := List.intercalate " ".data ls

/-- Per-block parse of `parseSrt`: a block with fewer than 3 lines is discarded;
the text lines are joined with a space and cleaned. -/
def parseBlock (block : List Char) : Option SrtBlock :=
  let lines := splitLines block
  if lines.length < 3 then none
  else
    let cleanedText := cleanText (joinSpace (lines.drop 2))
    some ⟨lines.getD 0 [], lines.getD 1 [], cleanedText, jsTrimSplitWs cleanedText⟩

/-- `parseSrt` (offlineService.ts lines 63-84). -/
def parseSrt (srt : List Char) : List SrtBlock :=
  (splitOnBlankLines (normalizeCrlf srt)).filterMap parseBlock

/-- `stringifySrt` (offlineService.ts lines 89-91). -/
def stringifySrt (blocks : List SrtBlock) : List Char :=
  List.intercalate "\n\n".data (blocks.map fun b => b.id ++ '\n' :: b.time ++ '\n' :: b.text)

example : parseSrt "1\n00:01 --> 00:02\nhello there\n\n2\nT\nbye".data =
    [⟨"1".data, "00:01 --> 00:02".data, "hello there".data, ["hello".data, "there".data]⟩,
     ⟨"2".data, "T".data, "bye".data, ["bye".data]⟩] := by decide
example : stringifySrt (parseSrt "1\nT\nhi\n\nbad".data) = "1\nT\nhi".data := by decide

/-! ### Inverse text normalization (src/utils/itn.ts) -/

/-- `formatWithIndianCommas` (itn.ts lines 328-342) on a natural number. -/
def indianLoop : Nat → List Char → List Char → List Char
  | _, [], result => result
  | 0, remaining, result => remaining ++ result
  | fuel + 1, remaining, result =>
    let chunk := remaining.drop (remaining.length - 2)
    indianLoop fuel (remaining.take (remaining.length - 2)) (chunk ++ ',' :: result)

def formatWithIndianCommas (num : Nat) : List Char :=
  let numStr := (Nat.repr num).data
  if numStr.length ≤ 3 then numStr
  else
    indianLoop numStr.length (numStr.take (numStr.length - 3))
      (numStr.drop (numStr.length - 3))

example : formatWithIndianCommas 1234567 = "12,34,567".data := by decide
example : formatWithIndianCommas 999 = "999".data := by decide
example : formatWithIndianCommas 1000 = "1,000".data := by decide

/-- `CURRENCY_WORDS` (itn.ts lines 348-357), in insertion order. -/
def CURRENCY_WORDS : List (List Char × Char) :=
  [("rupees".data, '₹'), ("rupee".data, '₹'), ("rs".data, '₹'), ("rs.".data, '₹'),
   ("inr".data, '₹'), ("dollars".data, '$'), ("dollar".data, '$'), ("usd".data, '$')]

/-- Match a currency word interpolated into a regex (flags `gi`): letters match
case-insensitively and a literal `.` in the word acts as the regex wildcard. -/
def matchCurWord : List Char → List Char → Option Nat
  | [], _ => some 0
  | _ :: _, [] => none
  | p :: ps, c :: cs =>
    if (p == '.' && !isLineTerm c) || (p != '.' && toLowerJs c == p) then
      (matchCurWord ps cs).map (· + 1)
    else none

/-- Match for `(\d+(?:[\.\,]\d+)?)\s*WORD`: greedy number (with optional decimal
part, dropped on backtracking), optional whitespace, then the currency word.
Returns the match length and the replacement `SYMBOL$1`. -/
def tryCur1 (word : List Char) (sym : Char) (s : List Char) :
    Option (Nat × List Char) :=
  let d := digitRun s
  if d == 0 then none
  else
    let cands : List Nat :=
      (match s.drop d with
       | c :: rest =>
         if (c == '.' || c == ',') && digitRun rest != 0 then [d + 1 + digitRun rest] else []
       | [] => []) ++ [d]
    cands.findSome? fun n =>
      let s3 := s.drop n
      let w := wsRun s3
      (matchCurWord word (s3.drop w)).map fun wl => (n + w + wl, sym :: s.take n)

/-- Match for `WORD\s*(\d+(?:[\.\,]\d+)?)`: the currency word, optional
whitespace, then a greedy number with optional decimal part. -/
def tryCur2 (word : List Char) (sym : Char) (s : List Char) :
    Option (Nat × List Char) :=
  (matchCurWord word s).bind fun wl =>
    let s2 := s.drop wl
    let w := wsRun s2
    let s3 := s2.drop w
    let d := digitRun s3
    if d == 0 then none
    else
      let n :=
        match s3.drop d with
        | c :: rest =>
          if (c == '.' || c == ',') && digitRun rest != 0 then d + 1 + digitRun rest else d
        | [] => d
      some (wl + w + n, sym :: s3.take n)

/-- `normalizeCurrency` (itn.ts lines 363-377): for each currency word in order,
one global pass for `NUMBER WORD`, then one for `WORD NUMBER`. -/
def normalizeCurrency (text : List Char) : List Char :=
  CURRENCY_WORDS.foldl
    (fun acc kv =>
      jsReplace (fun _ s => tryCur2 kv.1 kv.2 s)
        (jsReplace (fun _ s => tryCur1 kv.1 kv.2 s) acc))
    text

example : normalizeCurrency "100 rupees".data = "₹100".data := by decide
example : normalizeCurrency "rs 50".data = "₹50".data := by decide
example : normalizeCurrency "cars 50".data = "ca₹50".data := by decide
example : normalizeCurrency "1\n5 rs later\nhello".data = "1\n₹5 later\nhello".data := by decide

/-- The `\b` test before a match: the previous character, if any, is not a word
character. -/
def bOkP : Option Char → Bool
  | none => true
  | some p => !isWordChar p

/-- Matcher for `\bWORD\b` (flags `gi`) at the current position: word boundary
before, case-insensitive literal, word boundary after. -/
def tryWordCi (pat rep : List Char) (prev : Option Char) (s : List Char) :
    Option (Nat × List Char) :=
  if bOkP prev && ciStartsWith pat s && !isWordChar (s.getD pat.length ' ') then
    some (pat.length, rep)
  else none

/-- Global replacement of `\bWORD\b` (flags `gi`) with a fixed string. -/
def replaceWordCi (pat rep : List Char) (l : List Char) : List Char :=
  jsReplace (tryWordCi pat rep) l

/-- `NUMBER_WORDS` (itn.ts lines 383-395), in insertion order, with each value
already rendered as its digit string. -/
def NUMBER_WORDS : List (List Char × List Char) :=
  [("zero".data, "0".data), ("one".data, "1".data), ("two".data, "2".data),
   ("three".data, "3".data), ("four".data, "4".data), ("five".data, "5".data),
   ("six".data, "6".data), ("seven".data, "7".data), ("eight".data, "8".data),
   ("nine".data, "9".data), ("ten".data, "10".data), ("eleven".data, "11".data),
   ("twelve".data, "12".data), ("thirteen".data, "13".data), ("fourteen".data, "14".data),
   ("fifteen".data, "15".data), ("sixteen".data, "16".data), ("seventeen".data, "17".data),
   ("eighteen".data, "18".data), ("nineteen".data, "19".data), ("twenty".data, "20".data),
   ("thirty".data, "30".data), ("forty".data, "40".data), ("fifty".data, "50".data),
   ("sixty".data, "60".data), ("seventy".data, "70".data), ("eighty".data, "80".data),
   ("ninety".data, "90".data), ("hundred".data, "100".data), ("thousand".data, "1000".data),
   ("lakh".data, "100000".data), ("crore".data, "10000000".data),
   ("ek".data, "1".data), ("do".data, "2".data), ("teen".data, "3".data),
   ("char".data, "4".data), ("paanch".data, "5".data), ("chhe".data, "6".data),
   ("saat".data, "7".data), ("aath".data, "8".data), ("nau".data, "9".data),
   ("das".data, "10".data), ("sau".data, "100".data), ("hazaar".data, "1000".data),
   ("hazar".data, "1000".data)]

/-- `numberWordsToDigits` (itn.ts lines 401-410). -/
def numberWordsToDigits (text : List Char) : List Char :=
  NUMBER_WORDS.foldl (fun acc kv => replaceWordCi kv.1 kv.2 acc) text

/-- `SCHWA_DELETIONS` (itn.ts lines 416-437), in insertion order. -/
def SCHWA_DELETIONS : List (List Char × List Char) :=
  [("rama".data, "Ram".data), ("krishna".data, "Krishna".data), ("shiva".data, "Shiv".data),
   ("ganga".data, "Ganga".data), ("karna".data, "Karan".data), ("arjuna".data, "Arjun".data),
   ("hanumana".data, "Hanuman".data), ("ravana".data, "Ravan".data),
   ("mohana".data, "Mohan".data), ("lakshmana".data, "Lakshman".data),
   ("bharata".data, "Bharat".data), ("gopala".data, "Gopal".data),
   ("narayana".data, "Narayan".data), ("mathura".data, "Mathura".data),
   ("ayodhya".data, "Ayodhya".data)]

/-- `applySchwaRules` (itn.ts lines 442-451). -/
def applySchwaRules (text : List Char) : List Char :=
  SCHWA_DELETIONS.foldl (fun acc kv => replaceWordCi kv.1 kv.2 acc) text

/-! Token view of `\b`-anchored replacement: a text decomposes (via `splitB`)
into an alternating run of word-character tokens and non-word-character
tokens, and one `replace(/\bWORD\b/gi, rep)` pass acts on that decomposition
token by token. -/

/-- The character class of a token (word run or separator run). -/
def tokClass : List Char → Bool
  | [] => false
  | c :: _ => isWordChar c

/-- A nonempty token all of whose characters share the token's class. -/
def homog (t : List Char) : Bool :=
  !t.isEmpty && t.all fun c => isWordChar c == tokClass t

/-- Tokens are homogeneous and adjacent tokens have different classes. -/
def altToks : List (List Char) → Bool
  | [] => true
  | [t] => homog t
  | t1 :: t2 :: ts => homog t1 && (tokClass t1 != tokClass t2) && altToks (t2 :: ts)

/-- The scanner's `prev` after consuming `u` (falling back to `prev` when `u`
is empty). -/
def lastD : List Char → Option Char → Option Char
  | [], prev => prev
  | c :: cs, _ => lastD cs (some c)

/-- The effect of one `\bWORD\b` pass on a single token: a token that equals
the pattern case-insensitively becomes the replacement, anything else is kept. -/
def sub1 (pat rep t : List Char) : List Char :=
  if t.map toLowerJs == pat then rep else t

/-- The effect of the whole schwa table on a single token. -/
def schwaToken (t : List Char) : List Char :=
  SCHWA_DELETIONS.foldl (fun t kv => sub1 kv.1 kv.2 t) t

/-- `ITNOptions` (itn.ts lines 457-461): three optional boolean flags. -/
structure ITNOptions where
  normalizeCurrency : Option Bool
  convertNumberWords : Option Bool
  applySchwa : Option Bool
deriving DecidableEq

/-- `applyITN` (itn.ts lines 466-488): defaults are currency on, number words
off, schwa on. -/
def applyITN (options : ITNOptions) (text : List Char) : List Char :=
  let doCurrency := options.normalizeCurrency.getD true
  let doNumbers := options.convertNumberWords.getD false
  let doSchwa := options.applySchwa.getD true
  let r1 := if doCurrency then normalizeCurrency text else text
  let r2 := if doNumbers then numberWordsToDigits r1 else r1
  if doSchwa then applySchwaRules r2 else r2

example : applySchwaRules "rama and krishna".data = "Ram and Krishna".data := by decide
example : applySchwaRules "KRISHNA".data = "Krishna".data := by decide
example : numberWordsToDigits "twenty paanch".data = "20 5".data := by decide
example : applyITN ⟨none, none, none⟩ "arjuna has 10 rupees".data =
    "Arjun has ₹10".data := by decide

/-! ### Word-level diff

Modelled from the spec: `Diff.diffWords` comes from the external `diff` npm
package, which is not among the sources at hand.  Per spec §4.5 step 4 it is "a
standard longest-common-subsequence-based word diff (minimal edit script over
word tokens)"; the model below computes exactly that over the two word streams
(the source joins each stream with single spaces and re-splits each emitted
part on `/\S+/g`, which round-trips to the word lists used here). -/

inductive DiffKind where
  | unchanged
  | removed
  | added
deriving DecidableEq

structure DiffPart where
  kind : DiffKind
  words : List (List Char)
deriving DecidableEq

def lcsLenF : Nat → List (List Char) → List (List Char) → Nat
  | _, [], _ => 0
  | _, _, [] => 0
  | 0, _, _ => 0
  | f + 1, x :: xs, y :: ys =>
    if x = y then lcsLenF f xs ys + 1
    else max (lcsLenF f (x :: xs) ys) (lcsLenF f xs (y :: ys))

def lcsLen (xs ys : List (List Char)) : Nat := lcsLenF (xs.length + ys.length) xs ys

/-- Prepend one word to the run of segments, merging with a leading segment of
the same kind (the diff emits maximal same-kind runs). -/
def consPart (k : DiffKind) (w : List Char) : List DiffPart → List DiffPart
  | [] => [⟨k, [w]⟩]
  | p :: ps => if p.kind = k then ⟨k, w :: p.words⟩ :: ps else ⟨k, [w]⟩ :: p :: ps

def diffWordsRec : Nat → List (List Char) → List (List Char) → List DiffPart
  | _, [], [] => []
  | _, [], y :: ys => [⟨.added, y :: ys⟩]
  | _, x :: xs, [] => [⟨.removed, x :: xs⟩]
  | 0, _, _ => []
  | f + 1, x :: xs, y :: ys =>
    if x = y then consPart .unchanged x (diffWordsRec f xs ys)
    else if lcsLen (x :: xs) ys ≥ lcsLen xs (y :: ys) then
      consPart .added y (diffWordsRec f (x :: xs) ys)
    else
      consPart .removed x (diffWordsRec f xs (y :: ys))

/-- The LCS word diff: source = caption word stream, target = script word stream. -/
def diffWords (xs ys : List (List Char)) : List DiffPart :=
  diffWordsRec (xs.length + ys.length) xs ys

/-- Words of the segments of kind Unchanged or OnlyInSource, in order. -/
def sourceWords (ps : List DiffPart) : List (List Char) :=
  (ps.map fun p => if p.kind = .added then [] else p.words).flatten

/-- Words of the segments of kind Unchanged or OnlyInTarget, in order. -/
def targetWords (ps : List DiffPart) : List (List Char) :=
  (ps.map fun p => if p.kind = .removed then [] else p.words).flatten

example : diffWords ["a".data, "b".data] ["a".data, "c".data, "b".data] =
    [⟨.unchanged, ["a".data]⟩, ⟨.added, ["c".data]⟩, ⟨.unchanged, ["b".data]⟩] := by decide

/-! ### Re-bucketing and the alignment engine (offlineService.ts lines 138-251) -/

/-- One entry of the flattened caption word stream. -/
structure WordIdx where
  word : List Char
  blockIndex : Nat
deriving DecidableEq

/-- The mutable state of the reconstruction loop: per-block word buckets, the
current block index, and the cursor into the flattened caption word stream. -/
structure RbState where
  buckets : List (List (List Char))
  currentBlockIndex : Nat
  srtWordCursor : Nat
deriving DecidableEq

def pushAt (buckets : List (List (List Char))) (i : Nat) (w : List Char) :
    List (List (List Char)) :=
  buckets.set i (buckets.getD i [] ++ [w])

/-- Processing of one diff segment (offlineService.ts lines 199-231), as coded:
bucket writes are guarded by `currentBlockIndex < newBlockTexts.length` and
cursor advances by `srtWordCursor < srtWordMap.length`. -/
def rbStep (map : List WordIdx) (st : RbState) (p : DiffPart) : RbState :=
  match p.kind with
  | .added =>
    p.words.foldl
      (fun st w =>
        if st.currentBlockIndex < st.buckets.length then
          { st with buckets := pushAt st.buckets st.currentBlockIndex w }
        else st)
      st
  | .removed =>
    p.words.foldl
      (fun st _ =>
        if st.srtWordCursor < map.length then
          { st with currentBlockIndex := (map.getD st.srtWordCursor ⟨[], 0⟩).blockIndex,
                    srtWordCursor := st.srtWordCursor + 1 }
        else st)
      st
  | .unchanged =>
    p.words.foldl
      (fun st w =>
        let st1 :=
          if st.srtWordCursor < map.length then
            { st with currentBlockIndex := (map.getD st.srtWordCursor ⟨[], 0⟩).blockIndex,
                      srtWordCursor := st.srtWordCursor + 1 }
          else st
        if st1.currentBlockIndex < st1.buckets.length then
          { st1 with buckets := pushAt st1.buckets st1.currentBlockIndex w }
        else st1)
      st

def rebucket (map : List WordIdx) (init : RbState) (parts : List DiffPart) : RbState :=
  parts.foldl (rbStep map) init

/-- The initial reconstruction state: one empty bucket per block, current block
index 0, caption-word cursor 0. -/
def initRb (n : Nat) : RbState := ⟨List.replicate n [], 0, 0⟩

/-- Processing of one diff segment as the specification words it (spec §4.5
step 5): added words are appended to the current block's bucket, removed and
unchanged words advance the cursor and retarget the current block index (a
no-op once the cursor is exhausted), and unchanged words are also appended. -/
def rbStepSpec (map : List WordIdx) (st : RbState) (p : DiffPart) : RbState :=
  match p.kind with
  | .added =>
    p.words.foldl
      (fun st w => { st with buckets := pushAt st.buckets st.currentBlockIndex w })
      st
  | .removed =>
    p.words.foldl
      (fun st _ =>
        if st.srtWordCursor < map.length then
          { st with currentBlockIndex := (map.getD st.srtWordCursor ⟨[], 0⟩).blockIndex,
                    srtWordCursor := st.srtWordCursor + 1 }
        else st)
      st
  | .unchanged =>
    p.words.foldl
      (fun st w =>
        let st1 :=
          if st.srtWordCursor < map.length then
            { st with currentBlockIndex := (map.getD st.srtWordCursor ⟨[], 0⟩).blockIndex,
                      srtWordCursor := st.srtWordCursor + 1 }
          else st
        { st1 with buckets := pushAt st1.buckets st1.currentBlockIndex w })
      st

def rebucketSpec (map : List WordIdx) (init : RbState) (parts : List DiffPart) : RbState :=
  parts.foldl (rbStepSpec map) init

/-- The flattened caption word stream: each block's `/\S+/g` words tagged with
the block's index (offlineService.ts lines 177-184). -/
def buildWordMap (blocks : List SrtBlock) : List WordIdx :=
  (blocks.enum.map fun ib => (nonWsRuns ib.2.text).map fun w => WordIdx.mk w ib.1).flatten

/-- Step 6 of the engine (offlineService.ts lines 234-237): each block's text
becomes its bucket's words joined by single spaces. -/
def realignAux (buckets : List (List (List Char))) : Nat → List SrtBlock → List SrtBlock
  | _, [] => []
  | i, b :: bs =>
    { b with text := joinSpace (buckets.getD i []) } :: realignAux buckets (i + 1) bs

def realignBlocks (blocks : List SrtBlock) (buckets : List (List (List Char))) :
    List SrtBlock :=
  realignAux buckets 0 blocks

deriving instance DecidableEq for Except

/-- `alignSrtOffline` (offlineService.ts lines 138-251), with the missing
`WORD_BANK` as an explicit parameter and the promise/timeout wrapper elided
(the computation inside it is pure). -/
def alignSrtOffline (WORD_BANK customWordBank : List (List Char × List Char))
    (srtContent scriptContent : List Char) : Except (List Char) (List Char) :=
  if trimJs srtContent = [] then
    .error "Source SRT file content is empty.".data
  else if trimJs scriptContent = [] then
    .error "Correct Script content is empty.".data
  else
    let correctedSrtContent := applyWordBank WORD_BANK customWordBank srtContent
    let srtBlocks := parseSrt correctedSrtContent
    if srtBlocks = [] then
      .error "No valid subtitles found. Please check if the source file is a valid SRT with timestamps.".data
    else
      let cleanScript := cleanText scriptContent
      let scriptWords := nonWsRuns cleanScript
      if scriptWords = [] then
        .error "Script contains no usable text after cleaning. It might only contain metadata, scene headers, or timestamps which are automatically removed.".data
      else
        let srtWordMap := buildWordMap srtBlocks
        let diffs := diffWords (srtWordMap.map (·.word)) scriptWords
        let st := rebucket srtWordMap (initRb srtBlocks.length) diffs
        .ok (applyITN ⟨none, none, none⟩ (stringifySrt (realignBlocks srtBlocks st.buckets)))

example : alignSrtOffline [] [] "1\n00:00:00,000 --> 00:00:02,000\nHello sir how are you".data
    "Hello sir, how r u".data =
    .ok "1\n00:00:00,000 --> 00:00:02,000\nHello sir, how r u".data := by decide
example : alignSrtOffline [] [] "1\n5 rs later\nhello".data "hello".data =
    .ok "1\n₹5 later\nhello".data := by decide
example : alignSrtOffline [] [] "".data "x".data =
    .error "Source SRT file content is empty.".data := by decide
example : alignSrtOffline [] [] "1\nT\nhi".data "  ".data =
    .error "Correct Script content is empty.".data := by decide

/-! ## Claim theorems -/

theorem sourceWords_consPart (k : DiffKind) (w : List Char) (ps : List DiffPart) :
    sourceWords (consPart k w ps) =
      if k = DiffKind.added then sourceWords ps else w :: sourceWords ps := by
  cases ps with
  | nil => cases k <;> simp [consPart, sourceWords]
  | cons p ps =>
    by_cases h : p.kind = k
    · cases k <;> simp_all [consPart, sourceWords]
    · cases k <;> simp_all [consPart, sourceWords]

theorem targetWords_consPart (k : DiffKind) (w : List Char) (ps : List DiffPart) :
    targetWords (consPart k w ps) =
      if k = DiffKind.removed then targetWords ps else w :: targetWords ps := by
  cases ps with
  | nil => cases k <;> simp [consPart, targetWords]
  | cons p ps =>
    by_cases h : p.kind = k
    · cases k <;> simp_all [consPart, targetWords]
    · cases k <;> simp_all [consPart, targetWords]

theorem diffWordsRec_reconstruct :
    ∀ f xs ys, xs.length + ys.length ≤ f →
      sourceWords (diffWordsRec f xs ys) = xs ∧ targetWords (diffWordsRec f xs ys) = ys := by
  intro f
  induction f with
  | zero =>
    intro xs ys h
    cases xs with
    | nil =>
      cases ys with
      | nil => simp [diffWordsRec, sourceWords, targetWords]
      | cons y ys => simp at h
    | cons x xs => simp at h
  | succ f ih =>
    intro xs ys h
    cases xs with
    | nil =>
      cases ys with
      | nil => simp [diffWordsRec, sourceWords, targetWords]
      | cons y ys => simp [diffWordsRec, sourceWords, targetWords]
    | cons x xs =>
      cases ys with
      | nil => simp [diffWordsRec, sourceWords, targetWords]
      | cons y ys =>
        simp only [diffWordsRec]
        by_cases hxy : x = y
        · have hf : xs.length + ys.length ≤ f := by
            simp [List.length_cons] at h; omega
          have hrec := ih xs ys hf
          simp [hxy, sourceWords_consPart, targetWords_consPart, hrec.1, hrec.2]
        · by_cases hge : lcsLen (x :: xs) ys ≥ lcsLen xs (y :: ys)
          · have hf : (x :: xs).length + ys.length ≤ f := by
              simp [List.length_cons] at h ⊢; omega
            have hrec := ih (x :: xs) ys hf
            simp [hxy, hge, sourceWords_consPart, targetWords_consPart, hrec.1, hrec.2]
          · have hf : xs.length + (y :: ys).length ≤ f := by
              simp [List.length_cons] at h ⊢; omega
            have hrec := ih xs (y :: ys) hf
            simp [hxy, hge, sourceWords_consPart, targetWords_consPart, hrec.1, hrec.2]

/-- C3: for any two word streams, the segments of the word-level diff used by
`alignSrtOffline` reconstruct both inputs: concatenating the words of the
Unchanged/OnlyInSource segments in order yields the source (caption) stream,
and concatenating the words of the Unchanged/OnlyInTarget segments in order
yields the target (script) stream. -/
theorem diff_reconstruction (xs ys : List (List Char)) :
    sourceWords (diffWords xs ys) = xs ∧ targetWords (diffWords xs ys) = ys :=
  diffWordsRec_reconstruct _ xs ys (Nat.le_refl _)

theorem pushAt_oob (buckets : List (List (List Char))) (i : Nat) (w : List Char)
    (h : ¬ i < buckets.length) : pushAt buckets i w = buckets := by
  unfold pushAt
  exact List.set_eq_of_length_le (Nat.le_of_not_lt h)

theorem foldl_ext {α β : Type} (f g : α → β → α) (hfg : ∀ a b, f a b = g a b) :
    ∀ (l : List β) (a : α), List.foldl f a l = List.foldl g a l := by
  intro l
  induction l with
  | nil => intro a; rfl
  | cons b l ih => intro a; simp only [List.foldl_cons, hfg, ih]

theorem writeStep_eq (st : RbState) (w : List Char) :
    (if st.currentBlockIndex < st.buckets.length then
      { st with buckets := pushAt st.buckets st.currentBlockIndex w }
    else st) =
      { st with buckets := pushAt st.buckets st.currentBlockIndex w } := by
  by_cases h : st.currentBlockIndex < st.buckets.length
  · simp [h]
  · simp [h, pushAt_oob _ _ _ h]

theorem rbStep_eq_spec (map : List WordIdx) (st : RbState) (p : DiffPart) :
    rbStep map st p = rbStepSpec map st p := by
  unfold rbStep rbStepSpec
  cases p.kind with
  | added => exact foldl_ext _ _ (fun a b => writeStep_eq a b) p.words st
  | removed => rfl
  | unchanged => exact foldl_ext _ _ (fun a b => writeStep_eq _ b) p.words st

theorem realignAux_text (buckets : List (List (List Char))) :
    ∀ (bs : List SrtBlock) (i : Nat),
      (realignAux buckets i bs).map SrtBlock.text =
        (List.range' i bs.length).map fun j => joinSpace (buckets.getD j []) := by
  intro bs
  induction bs with
  | nil => intro i; simp [realignAux]
  | cons b bs ih => intro i; simp [realignAux, List.range'_succ, ih]

/-- C2: the reconstruction loop of `alignSrtOffline` behaves exactly as the
specification describes it.  `rbStep` is the loop as coded (with its
bounds-checked bucket writes) and `rbStepSpec` transcribes the claim: added
words append to the current block's bucket without moving either cursor,
removed words advance the caption-word cursor and retarget the current block
index without writing, unchanged words do both, cursor advances are no-ops
once the caption word stream is exhausted, and each output block's text is its
bucket joined by single spaces. -/
theorem rebucket_spec_correct :
    (∀ (map : List WordIdx) (n : Nat) (parts : List DiffPart),
      rebucket map (initRb n) parts = rebucketSpec map (initRb n) parts) ∧
    (∀ (blocks : List SrtBlock) (buckets : List (List (List Char))),
      (realignBlocks blocks buckets).map SrtBlock.text =
        (List.range' 0 blocks.length).map fun j => joinSpace (buckets.getD j [])) := by
  constructor
  · intro map n parts
    exact foldl_ext _ _ (fun st p => rbStep_eq_spec map st p) parts (initRb n)
  · intro blocks buckets
    exact realignAux_text buckets blocks 0

def headNonWs : List Char → Bool
  | [] => true
  | c :: _ => !isJsWs c

/-- A string is whitespace-normalized when each of its whitespace characters is
a single space not followed by more whitespace. -/
def wsSqueezed : List Char → Bool
  | [] => true
  | c :: cs => (!isJsWs c || (c == ' ' && headNonWs cs)) && wsSqueezed cs

theorem headNonWs_cons (c : Char) (cs : List Char) :
    headNonWs (c :: cs) = !isJsWs c := rfl

theorem wsSqueezed_cons_iff (c : Char) (cs : List Char) :
    wsSqueezed (c :: cs) = true ↔
      ((isJsWs c = false ∨ (c = ' ' ∧ headNonWs cs = true)) ∧ wsSqueezed cs = true) := by
  simp [wsSqueezed, Bool.and_eq_true, Bool.or_eq_true]

theorem squeezeAux_wsSqueezed :
    ∀ (l : List Char) (b : Bool), wsSqueezed (squeezeAux b l) = true ∧
      (b = true → headNonWs (squeezeAux b l) = true) := by
  intro l
  induction l with
  | nil => intro b; exact ⟨rfl, fun _ => rfl⟩
  | cons c cs ih =>
    intro b
    by_cases hc : isJsWs c
    · cases b with
      | true => simpa [squeezeAux, hc] using (ih true)
      | false =>
        have h := ih true
        refine ⟨?_, fun hb => by cases hb⟩
        have hstep : squeezeAux false (c :: cs) = ' ' :: squeezeAux true cs := by
          simp [squeezeAux, hc]
        rw [hstep, wsSqueezed_cons_iff]
        exact ⟨Or.inr ⟨rfl, h.2 rfl⟩, h.1⟩
    · have h := ih false
      have hout : squeezeAux b (c :: cs) = c :: squeezeAux false cs := by
        cases b <;> simp [squeezeAux, hc]
      rw [hout]
      refine ⟨?_, fun _ => by simp [headNonWs_cons, hc]⟩
      rw [wsSqueezed_cons_iff]
      exact ⟨Or.inl (by simpa using hc), h.1⟩

theorem squeezeAux_fix :
    ∀ (l : List Char) (b : Bool), wsSqueezed l = true →
      (b = false ∨ headNonWs l = true) → squeezeAux b l = l := by
  intro l
  induction l with
  | nil => intro b _ _; cases b <;> rfl
  | cons c cs ih =>
    intro b hsq hb
    rw [wsSqueezed_cons_iff] at hsq
    by_cases hc : isJsWs c
    · have hb' : b = false := by
        rcases hb with hb | hb
        · exact hb
        · rw [headNonWs_cons] at hb; simp [hc] at hb
      subst hb'
      have hcond : c = ' ' ∧ headNonWs cs = true := by
        rcases hsq.1 with h | h
        · rw [h] at hc; cases hc
        · exact h
      have hrec := ih true hsq.2 (Or.inr hcond.2)
      obtain ⟨hceq, hhd⟩ := hcond
      subst hceq
      simp [squeezeAux, hrec, (by decide : isJsWs ' ' = true)]
    · have hrec := ih false hsq.2 (Or.inl rfl)
      cases b <;> simp [squeezeAux, hc, hrec]

theorem wsSqueezed_tail {c : Char} {cs : List Char}
    (h : wsSqueezed (c :: cs) = true) : wsSqueezed cs = true :=
  ((wsSqueezed_cons_iff c cs).mp h).2

theorem wsSqueezed_dropWhile (p : Char → Bool) :
    ∀ l : List Char, wsSqueezed l = true → wsSqueezed (l.dropWhile p) = true := by
  intro l
  induction l with
  | nil => intro h; exact h
  | cons c cs ih =>
    intro h
    by_cases hp : p c
    · simpa [List.dropWhile, hp] using ih (wsSqueezed_tail h)
    · simpa [List.dropWhile, hp] using h

theorem headNonWs_append_left (xs ys : List Char) (hne : xs ≠ []) :
    headNonWs (xs ++ ys) = headNonWs xs := by
  cases xs with
  | nil => exact absurd rfl hne
  | cons x xs => rfl

theorem wsSqueezed_append_left :
    ∀ (xs ys : List Char), wsSqueezed (xs ++ ys) = true → wsSqueezed xs = true := by
  intro xs
  induction xs with
  | nil => intro ys _; rfl
  | cons x xs ih =>
    intro ys h
    rw [List.cons_append, wsSqueezed_cons_iff] at h
    rw [wsSqueezed_cons_iff]
    refine ⟨?_, ih ys h.2⟩
    rcases h.1 with h1 | h1
    · exact Or.inl h1
    · refine Or.inr ⟨h1.1, ?_⟩
      cases xs with
      | nil => rfl
      | cons z zs =>
        rw [headNonWs_append_left (z :: zs) ys (by simp)] at h1
        exact h1.2

theorem headNonWs_dropWhile :
    ∀ l : List Char, headNonWs (l.dropWhile isJsWs) = true := by
  intro l
  induction l with
  | nil => rfl
  | cons c cs ih =>
    by_cases hc : isJsWs c
    · simpa [List.dropWhile, hc] using ih
    · simp [List.dropWhile, hc, headNonWs_cons]

theorem trimRight_decomp (m : List Char) :
    m = (m.reverse.dropWhile isJsWs).reverse ++ (m.reverse.takeWhile isJsWs).reverse := by
  have h : m.reverse.takeWhile isJsWs ++ m.reverse.dropWhile isJsWs = m.reverse :=
    List.takeWhile_append_dropWhile _ _
  calc m = m.reverse.reverse := (List.reverse_reverse m).symm
    _ = (m.reverse.takeWhile isJsWs ++ m.reverse.dropWhile isJsWs).reverse := by rw [h]
    _ = (m.reverse.dropWhile isJsWs).reverse ++ (m.reverse.takeWhile isJsWs).reverse :=
        List.reverse_append _ _

theorem wsSqueezed_trimJs (l : List Char) (h : wsSqueezed l = true) :
    wsSqueezed (trimJs l) = true := by
  unfold trimJs
  have h1 : wsSqueezed (l.dropWhile isJsWs) = true := wsSqueezed_dropWhile _ l h
  refine wsSqueezed_append_left _ ((l.dropWhile isJsWs).reverse.takeWhile isJsWs).reverse ?_
  rw [← trimRight_decomp]
  exact h1

theorem headNonWs_trimJs (l : List Char) : headNonWs (trimJs l) = true := by
  unfold trimJs
  have hmh : headNonWs (l.dropWhile isJsWs) = true := headNonWs_dropWhile l
  cases htr : ((l.dropWhile isJsWs).reverse.dropWhile isJsWs).reverse with
  | nil => rfl
  | cons d rest =>
    have hdec := trimRight_decomp (l.dropWhile isJsWs)
    rw [htr] at hdec
    rw [hdec, headNonWs_append_left _ _ (by simp)] at hmh
    exact hmh

theorem revHeadNonWs_trimJs (l : List Char) : headNonWs (trimJs l).reverse = true := by
  unfold trimJs
  rw [List.reverse_reverse]
  exact headNonWs_dropWhile _

theorem dropWhile_of_headNonWs (t : List Char) (h : headNonWs t = true) :
    t.dropWhile isJsWs = t := by
  cases t with
  | nil => rfl
  | cons c cs =>
    rw [headNonWs_cons, Bool.not_eq_true'] at h
    simp [List.dropWhile, h]

theorem trimJs_fix (t : List Char) (h1 : headNonWs t = true)
    (h2 : headNonWs t.reverse = true) : trimJs t = t := by
  unfold trimJs
  rw [dropWhile_of_headNonWs t h1, dropWhile_of_headNonWs t.reverse h2,
    List.reverse_reverse]

theorem collapseWs_idem (l : List Char) : collapseWs (collapseWs l) = collapseWs l := by
  unfold collapseWs
  have hy : wsSqueezed (squeezeWs l) = true := (squeezeAux_wsSqueezed l false).1
  have ht : wsSqueezed (trimJs (squeezeWs l)) = true := wsSqueezed_trimJs _ hy
  have hfix : squeezeWs (trimJs (squeezeWs l)) = trimJs (squeezeWs l) :=
    squeezeAux_fix _ false ht (Or.inl rfl)
  rw [hfix]
  exact trimJs_fix _ (headNonWs_trimJs _) (revHeadNonWs_trimJs _)

/-- C6 counterexample: cleaning is not idempotent.  Removing the bracketed
span from `"ww[z]w.x"` splices together the token `"www.x"`, which the URL
rule of a second cleaning pass then deletes entirely. -/
theorem cleanText_not_idempotent :
    cleanText "ww[z]w.x".data = "www.x".data ∧
    cleanText (cleanText "ww[z]w.x".data) = [] ∧
    cleanText (cleanText "ww[z]w.x".data) ≠ cleanText "ww[z]w.x".data :=
  ⟨by decide, by decide, by decide⟩

/-- C6 (amended): `clean(clean(x)) = clean(x)` holds for every `x` whose cleaned
form is left unchanged by each of the eight removal rules (no URL token, no
same-line bracket pair, no scene-heading, speaker-label, unknown or digit-only
pattern); the final whitespace collapse is idempotent on its own.  Without that
proviso a second clean can strip strictly more, as the counterexample shows. -/
theorem cleanText_idem_of_fixed (x : List Char)
    (h1 : removeHttp (cleanText x) = cleanText x)
    (h2 : removeWww (cleanText x) = cleanText x)
    (h3 : removeBrackets (cleanText x) = cleanText x)
    (h4 : removeScene (cleanText x) = cleanText x)
    (h5 : removeSpeaker (cleanText x) = cleanText x)
    (h6 : removeUnknowLines (cleanText x) = cleanText x)
    (h7 : removeUnknowWord (cleanText x) = cleanText x)
    (h8 : removeDigitLines (cleanText x) = cleanText x) :
    cleanText (cleanText x) = cleanText x := by
  have key : cleanText (cleanText x) = collapseWs (cleanText x) := by
    show collapseWs (removeDigitLines (removeUnknowWord (removeUnknowLines (removeSpeaker
      (removeScene (removeBrackets (removeWww (removeHttp (cleanText x))))))))) =
      collapseWs (cleanText x)
    rw [h1, h2, h3, h4, h5, h6, h7, h8]
  rw [key]
  show collapseWs (collapseWs (removeDigitLines (removeUnknowWord (removeUnknowLines
    (removeSpeaker (removeScene (removeBrackets (removeWww (removeHttp x))))))))) =
    cleanText x
  rw [collapseWs_idem]
  rfl

theorem cleanText_idem_of_fixed_witness :
    (removeHttp (cleanText "hello   world".data) = cleanText "hello   world".data) ∧
    (removeWww (cleanText "hello   world".data) = cleanText "hello   world".data) ∧
    (removeBrackets (cleanText "hello   world".data) = cleanText "hello   world".data) ∧
    (removeScene (cleanText "hello   world".data) = cleanText "hello   world".data) ∧
    (removeSpeaker (cleanText "hello   world".data) = cleanText "hello   world".data) ∧
    (removeUnknowLines (cleanText "hello   world".data) = cleanText "hello   world".data) ∧
    (removeUnknowWord (cleanText "hello   world".data) = cleanText "hello   world".data) ∧
    (removeDigitLines (cleanText "hello   world".data) = cleanText "hello   world".data) ∧
    cleanText (cleanText "hello   world".data) = cleanText "hello   world".data :=
  ⟨by decide, by decide, by decide, by decide, by decide, by decide, by decide, by decide,
   cleanText_idem_of_fixed "hello   world".data (by decide) (by decide) (by decide)
     (by decide) (by decide) (by decide) (by decide) (by decide)⟩

theorem realignAux_id (buckets : List (List (List Char))) :
    ∀ (bs : List SrtBlock) (i : Nat),
      (realignAux buckets i bs).map SrtBlock.id = bs.map SrtBlock.id := by
  intro bs
  induction bs with
  | nil => intro i; rfl
  | cons b bs ih => intro i; simp [realignAux, ih]

theorem realignAux_time (buckets : List (List (List Char))) :
    ∀ (bs : List SrtBlock) (i : Nat),
      (realignAux buckets i bs).map SrtBlock.time = bs.map SrtBlock.time := by
  intro bs
  induction bs with
  | nil => intro i; rfl
  | cons b bs ih => intro i; simp [realignAux, ih]

theorem realignAux_length (buckets : List (List (List Char))) :
    ∀ (bs : List SrtBlock) (i : Nat), (realignAux buckets i bs).length = bs.length := by
  intro bs
  induction bs with
  | nil => intro i; rfl
  | cons b bs ih => intro i; simp [realignAux, ih]

/-- C1 (amended): a successful `alignSrtOffline` run rebuilds exactly the blocks
of the parse of the word-bank-corrected caption — same count, same `id`, same
`time`, in order, with only `text` replaced — and its output is the ITN pass
over their serialization.  Byte-for-byte preservation of the input's `id` and
`timeRange` lines does not survive the whole pipeline, because the word-bank
pass runs on the raw caption before parsing and the final ITN pass runs on the
serialized track (see the counterexample). -/
theorem align_preserves_structure (WORD_BANK customWordBank : List (List Char × List Char))
    (srtContent scriptContent out : List Char)
    (h : alignSrtOffline WORD_BANK customWordBank srtContent scriptContent =
      Except.ok out) :
    let bs := parseSrt (applyWordBank WORD_BANK customWordBank srtContent)
    let st := rebucket (buildWordMap bs) (initRb bs.length)
      (diffWords ((buildWordMap bs).map (·.word)) (nonWsRuns (cleanText scriptContent)))
    out = applyITN ⟨none, none, none⟩ (stringifySrt (realignBlocks bs st.buckets)) ∧
    (realignBlocks bs st.buckets).length = bs.length ∧
    (realignBlocks bs st.buckets).map SrtBlock.id = bs.map SrtBlock.id ∧
    (realignBlocks bs st.buckets).map SrtBlock.time = bs.map SrtBlock.time := by
  intro bs st
  unfold alignSrtOffline at h
  by_cases h1 : trimJs srtContent = []
  · simp [h1] at h
  · by_cases h2 : trimJs scriptContent = []
    · simp [h1, h2] at h
    · by_cases h3 : parseSrt (applyWordBank WORD_BANK customWordBank srtContent) = []
      · simp [h1, h2, h3] at h
      · by_cases h4 : nonWsRuns (cleanText scriptContent) = []
        · simp [h1, h2, h3, h4] at h
        · simp only [h1, h2, h3, h4, if_false, if_neg, Except.ok.injEq] at h
          exact ⟨h.symm, realignAux_length _ _ _, realignAux_id _ _ _, realignAux_time _ _ _⟩

theorem align_preserves_structure_witness :
    (alignSrtOffline [] [] "1\nt1\nhello".data "hello".data =
      Except.ok "1\nt1\nhello".data) ∧
    ((realignBlocks (parseSrt (applyWordBank [] [] "1\nt1\nhello".data))
        (rebucket (buildWordMap (parseSrt (applyWordBank [] [] "1\nt1\nhello".data)))
          (initRb (parseSrt (applyWordBank [] [] "1\nt1\nhello".data)).length)
          (diffWords ((buildWordMap (parseSrt (applyWordBank [] [] "1\nt1\nhello".data))).map
            (·.word)) (nonWsRuns (cleanText "hello".data)))).buckets).map SrtBlock.time =
      (parseSrt (applyWordBank [] [] "1\nt1\nhello".data)).map SrtBlock.time) :=
  ⟨by decide,
   (align_preserves_structure [] [] "1\nt1\nhello".data "hello".data "1\nt1\nhello".data
     (by decide)).2.2.2⟩

/-- C1 counterexample: a caption whose `timeRange` line is `"5 rs later"` parses
to one block, aligns successfully, and comes back with `timeRange` `"₹5 later"`:
the final ITN pass rewrote the serialized time line, so the time range is not
preserved byte-for-byte through the whole pipeline. -/
theorem align_time_not_preserved :
    alignSrtOffline [] [] "1\n5 rs later\nhello".data "hello".data =
      Except.ok "1\n₹5 later\nhello".data ∧
    (parseSrt "1\n5 rs later\nhello".data).map SrtBlock.time = ["5 rs later".data] ∧
    (parseSrt "1\n₹5 later\nhello".data).map SrtBlock.time = ["₹5 later".data] ∧
    "₹5 later".data ≠ "5 rs later".data :=
  ⟨by decide, by decide, by decide, by decide⟩

/-- C4: `alignSrtOffline` returns an error exactly when the caption is empty or
whitespace-only, the script is empty or whitespace-only, the (word-bank
corrected) caption parses to zero blocks, or the script has no tokens left
after cleaning; on every other input it returns a complete corrected track
(all remaining steps are total functions). -/
theorem align_error_iff (WORD_BANK customWordBank : List (List Char × List Char))
    (srtContent scriptContent : List Char) :
    (∃ e, alignSrtOffline WORD_BANK customWordBank srtContent scriptContent =
      Except.error e) ↔
      (trimJs srtContent = [] ∨ trimJs scriptContent = [] ∨
       parseSrt (applyWordBank WORD_BANK customWordBank srtContent) = [] ∨
       nonWsRuns (cleanText scriptContent) = []) := by
  unfold alignSrtOffline
  by_cases h1 : trimJs srtContent = []
  · simp [h1]
  · by_cases h2 : trimJs scriptContent = []
    · simp [h1, h2]
    · by_cases h3 : parseSrt (applyWordBank WORD_BANK customWordBank srtContent) = []
      · simp [h1, h2, h3]
      · by_cases h4 : nonWsRuns (cleanText scriptContent) = []
        · simp [h1, h2, h3, h4]
        · simp [h1, h2, h3, h4]

/-- C5 counterexample: an override entry whose value is the empty string is
falsy under the JS truthiness test `if (customBank[lower])`, so the built-in
bank's value wins even though the key is present in the override map with a
different value. -/
theorem override_empty_value_loses :
    applyWordBank [("foo".data, "bar".data)] [("foo".data, [])] "foo".data = "bar".data ∧
    List.lookup "foo".data [("foo".data, ([] : List Char))] = some [] ∧
    "bar".data ≠ ([] : List Char) :=
  ⟨by decide, by decide, by decide⟩

/-- C5 (amended): for every text, every token whose lowercase form is a key of
the override map with a non-empty value is rewritten to that override value —
never to the built-in bank's value — and `applyWordBank` is the per-token
correction joined back over the `\b`-split of the text (the merge into
`mergeBanks` builds a fresh view and leaves both argument banks untouched).
An empty-string override value is treated as absent (JS truthiness) and the
built-in bank then wins. -/
theorem override_precedence (WORD_BANK customBank : List (List Char × List Char))
    (text t v : List Char) (ht : t ∈ splitB text)
    (hv : List.lookup (t.map toLowerJs) customBank = some v) (hne : v ≠ []) :
    applyWordBank WORD_BANK customBank text =
      ((splitB text).map (correctToken WORD_BANK customBank
        (mergeBanks WORD_BANK customBank))).flatten ∧
    correctToken WORD_BANK customBank (mergeBanks WORD_BANK customBank) t = v := by
  refine ⟨rfl, ?_⟩
  unfold correctToken lookupTruthy
  simp [hv, hne]

theorem override_precedence_witness :
    ("foo".data ∈ splitB "foo".data) ∧
    (List.lookup ("foo".data.map toLowerJs) [("foo".data, "baz".data)] =
      some "baz".data) ∧
    ("baz".data ≠ ([] : List Char)) ∧
    correctToken [("foo".data, "bar".data)] [("foo".data, "baz".data)]
      (mergeBanks [("foo".data, "bar".data)] [("foo".data, "baz".data)])
      "foo".data = "baz".data :=
  ⟨by decide, by decide, by decide,
   (override_precedence [("foo".data, "bar".data)] [("foo".data, "baz".data)]
     "foo".data "foo".data "baz".data (by decide) (by decide) (by decide)).2⟩

/-- C7: both currency patterns are rewritten to the symbol immediately followed
by the number: `"100 rupees"` becomes `"₹100"` and `"rs 50"` becomes `"₹50"`. -/
theorem normalizeCurrency_examples :
    normalizeCurrency "100 rupees".data = "₹100".data ∧
    normalizeCurrency "rs 50".data = "₹50".data :=
  ⟨by decide, by decide⟩

/-- C8 counterexample: the schwa pass does not leave exception-list names
as-is for every input casing — `"krishna"` is rewritten to the canonically
cased `"Krishna"`, which differs from the input occurrence. -/
theorem schwa_exception_recased :
    applySchwaRules "krishna".data = "Krishna".data ∧
    "Krishna".data ≠ "krishna".data :=
  ⟨by decide, by decide⟩

/-- C9: Indian digit grouping groups in pairs after the first three digits:
`1234567` yields `"12,34,567"` and `999` yields `"999"`. -/
theorem formatWithIndianCommas_examples :
    formatWithIndianCommas 1234567 = "12,34,567".data ∧
    formatWithIndianCommas 999 = "999".data :=
  ⟨by decide, by decide⟩

/-- C10: currency rewriting is not word-boundary anchored: in `"cars 50"` the
embedded substring `"rs"` of `"cars"` matches the `WORD NUMBER` pattern and is
rewritten, producing `"ca₹50"`. -/
theorem currency_not_word_anchored :
    normalizeCurrency "cars 50".data = "ca₹50".data := by decide

theorem toLowerJs_nonword (c : Char) (h : isWordChar c = false) : toLowerJs c = c := by
  unfold toLowerJs
  by_cases hc : 'A' ≤ c && c ≤ 'Z'
  · exfalso
    have hal : isAsciiLetter c = true := by simp [isAsciiLetter, hc]
    simp [isWordChar, hal] at h
  · simp [hc]

theorem word_of_lower_word (c : Char) (h : isWordChar (toLowerJs c) = true) :
    isWordChar c = true := by
  cases hcw : isWordChar c with
  | true => rfl
  | false => rw [toLowerJs_nonword c hcw] at h; rw [h] at hcw; cases hcw

theorem cons_beq_cons (a b : Char) (as bs : List Char) :
    ((a :: as) == (b :: bs)) = ((a == b) && (as == bs)) := rfl

theorem nil_beq_cons (b : Char) (bs : List Char) :
    ((([] : List Char)) == (b :: bs)) = false := rfl

theorem cons_beq_nil (a : Char) (as : List Char) :
    (((a :: as)) == ([] : List Char)) = false := rfl

theorem jsScan_zero_cons (tryM : Option Char → List Char → Option (Nat × List Char))
    (prev : Option Char) (c : Char) (cs : List Char) :
    jsScan tryM 0 prev (c :: cs) =
      match tryM prev (c :: cs) with
      | some (k, rep) => rep ++ jsScan tryM (k - 1) (some c) cs
      | none => c :: jsScan tryM 0 (some c) cs := rfl

theorem jsScan_succ_cons (tryM : Option Char → List Char → Option (Nat × List Char))
    (skip : Nat) (prev : Option Char) (c : Char) (cs : List Char) :
    jsScan tryM (skip + 1) prev (c :: cs) = jsScan tryM skip (some c) cs := rfl

theorem jsScan_cons_none (tryM : Option Char → List Char → Option (Nat × List Char))
    (prev : Option Char) (c : Char) (cs : List Char) (h : tryM prev (c :: cs) = none) :
    jsScan tryM 0 prev (c :: cs) = c :: jsScan tryM 0 (some c) cs := by
  rw [jsScan_zero_cons, h]

theorem jsScan_cons_some (tryM : Option Char → List Char → Option (Nat × List Char))
    (prev : Option Char) (c : Char) (cs : List Char) (k : Nat) (rep : List Char)
    (h : tryM prev (c :: cs) = some (k, rep)) :
    jsScan tryM 0 prev (c :: cs) = rep ++ jsScan tryM (k - 1) (some c) cs := by
  rw [jsScan_zero_cons, h]

theorem jsScan_skip (tryM : Option Char → List Char → Option (Nat × List Char)) :
    ∀ (u : List Char) (prev : Option Char) (rest : List Char),
      jsScan tryM u.length prev (u ++ rest) = jsScan tryM 0 (lastD u prev) rest := by
  intro u
  induction u with
  | nil => intro prev rest; rfl
  | cons c us ih =>
    intro prev rest
    rw [List.cons_append, List.length_cons, jsScan_succ_cons]
    exact ih (some c) rest

theorem ciStartsWith_cons (p c : Char) (ps xs : List Char) :
    ciStartsWith (p :: ps) (c :: xs) = ((toLowerJs c == p) && ciStartsWith ps xs) := by
  simp only [ciStartsWith, List.length_cons, List.take_succ_cons, List.map_cons]
  exact cons_beq_cons _ _ _ _

theorem map_toLowerJs_sep (t : List Char) (h : t.all (fun c => !isWordChar c) = true) :
    t.map toLowerJs = t := by
  induction t with
  | nil => rfl
  | cons c ts ih =>
    simp only [List.all_cons, Bool.and_eq_true] at h
    simp [toLowerJs_nonword c (by simpa using h.1), ih h.2]

theorem lower_ne_word (c p : Char) (hc : isWordChar c = false) (hp : isWordChar p = true) :
    (toLowerJs c == p) = false := by
  rw [toLowerJs_nonword c hc, beq_eq_false_iff_ne]
  intro hcp
  rw [hcp, hp] at hc
  cases hc

theorem tryWordCi_sep_head (pat rep : List Char) (prev : Option Char) (c : Char)
    (cs : List Char) (hp : pat ≠ []) (hpw : pat.all isWordChar = true)
    (hc : isWordChar c = false) : tryWordCi pat rep prev (c :: cs) = none := by
  obtain ⟨p, ps, rfl⟩ : ∃ p ps, pat = p :: ps := by
    cases pat with
    | nil => exact absurd rfl hp
    | cons p ps => exact ⟨p, ps, rfl⟩
  have hpword : isWordChar p = true := by
    simp only [List.all_cons, Bool.and_eq_true] at hpw; exact hpw.1
  unfold tryWordCi
  rw [ciStartsWith_cons, lower_ne_word c p hc hpword]
  simp

theorem tryWordCi_word_prev (pat rep : List Char) (p : Char) (s : List Char)
    (hp : isWordChar p = true) : tryWordCi pat rep (some p) s = none := by
  simp [tryWordCi, bOkP, hp]

theorem wordTok_match_cond (rest : List Char)
    (hrest : isWordChar (rest.getD 0 ' ') = false) :
    ∀ (t pat : List Char), pat.all isWordChar = true → t.all isWordChar = true →
      (ciStartsWith pat (t ++ rest) && !isWordChar ((t ++ rest).getD pat.length ' ')) =
        (t.map toLowerJs == pat) := by
  intro t
  induction t with
  | nil =>
    intro pat hpw _
    cases pat with
    | nil =>
      simp [ciStartsWith]
      simpa [List.getD] using hrest
    | cons p ps =>
      have hpword : isWordChar p = true := by
        simp only [List.all_cons, Bool.and_eq_true] at hpw; exact hpw.1
      cases rest with
      | nil => simp [ciStartsWith, nil_beq_cons]
      | cons r rs =>
        have hr : isWordChar r = false := by simpa using hrest
        rw [List.nil_append, ciStartsWith_cons, lower_ne_word r p hr hpword]
        simp [nil_beq_cons]
  | cons c ts ih =>
    intro pat hpw htw
    have hcw : isWordChar c = true := by
      simp only [List.all_cons, Bool.and_eq_true] at htw; exact htw.1
    have htsw : ts.all isWordChar = true := by
      simp only [List.all_cons, Bool.and_eq_true] at htw; exact htw.2
    cases pat with
    | nil => simp [ciStartsWith, hcw, cons_beq_nil]
    | cons p ps =>
      have hppw : ps.all isWordChar = true := by
        simp only [List.all_cons, Bool.and_eq_true] at hpw; exact hpw.2
      rw [List.cons_append, ciStartsWith_cons]
      have hb : ((c :: (ts ++ rest)).getD (p :: ps).length ' ') =
          ((ts ++ rest).getD ps.length ' ') := by
        simp [List.getD_cons_succ]
      rw [hb, Bool.and_assoc, ih ps hppw htsw, List.map_cons, cons_beq_cons]

theorem tryWordCi_word_tok (pat rep : List Char) (prev : Option Char) (t rest : List Char)
    (hpw : pat.all isWordChar = true) (htw : t.all isWordChar = true)
    (hrest : isWordChar (rest.getD 0 ' ') = false) (hprev : bOkP prev = true) :
    tryWordCi pat rep prev (t ++ rest) =
      if t.map toLowerJs == pat then some (pat.length, rep) else none := by
  unfold tryWordCi
  rw [hprev, Bool.true_and, wordTok_match_cond rest hrest t pat hpw htw]

theorem scan_sep_tok (pat rep : List Char) (hp : pat ≠ []) (hpw : pat.all isWordChar = true) :
    ∀ (t : List Char) (prev : Option Char) (rest : List Char),
      t.all (fun c => !isWordChar c) = true →
      jsScan (tryWordCi pat rep) 0 prev (t ++ rest) =
        t ++ jsScan (tryWordCi pat rep) 0 (lastD t prev) rest := by
  intro t
  induction t with
  | nil => intro prev rest _; rfl
  | cons c ts ih =>
    intro prev rest hall
    simp only [List.all_cons, Bool.and_eq_true] at hall
    have hc : isWordChar c = false := by simpa using hall.1
    rw [List.cons_append,
      jsScan_cons_none _ _ _ _ (tryWordCi_sep_head pat rep prev c (ts ++ rest) hp hpw hc),
      ih (some c) rest hall.2, List.cons_append]
    rfl

theorem scan_word_interior (pat rep : List Char) :
    ∀ (u : List Char) (p : Char) (rest : List Char), isWordChar p = true →
      u.all isWordChar = true →
      jsScan (tryWordCi pat rep) 0 (some p) (u ++ rest) =
        u ++ jsScan (tryWordCi pat rep) 0 (lastD u (some p)) rest := by
  intro u
  induction u with
  | nil => intro p rest _ _; rfl
  | cons d us ih =>
    intro p rest hp hall
    simp only [List.all_cons, Bool.and_eq_true] at hall
    rw [List.cons_append,
      jsScan_cons_none _ _ _ _ (tryWordCi_word_prev pat rep p _ hp),
      ih d rest hall.1 hall.2, List.cons_append]
    rfl

theorem scan_word_tok (pat rep : List Char) (hp : pat ≠ []) (hpw : pat.all isWordChar = true)
    (t rest : List Char) (prev : Option Char) (htne : t ≠ [])
    (htw : t.all isWordChar = true) (hrest : isWordChar (rest.getD 0 ' ') = false)
    (hprev : bOkP prev = true) :
    jsScan (tryWordCi pat rep) 0 prev (t ++ rest) =
      sub1 pat rep t ++ jsScan (tryWordCi pat rep) 0 (lastD t prev) rest := by
  obtain ⟨c, ts, rfl⟩ : ∃ c ts, t = c :: ts := by
    cases t with
    | nil => exact absurd rfl htne
    | cons c ts => exact ⟨c, ts, rfl⟩
  have hcw : isWordChar c = true := by
    simp only [List.all_cons, Bool.and_eq_true] at htw; exact htw.1
  have htsw : ts.all isWordChar = true := by
    simp only [List.all_cons, Bool.and_eq_true] at htw; exact htw.2
  have hmatch := tryWordCi_word_tok pat rep prev (c :: ts) rest hpw htw hrest hprev
  cases he : ((c :: ts).map toLowerJs == pat) with
  | true =>
    rw [he] at hmatch
    simp only [if_true] at hmatch
    have heq : (c :: ts).map toLowerJs = pat := eq_of_beq he
    have hlen : pat.length = ts.length + 1 := by rw [← heq]; simp
    rw [List.cons_append] at hmatch
    rw [List.cons_append, jsScan_cons_some _ _ _ _ _ _ hmatch, hlen,
      Nat.add_sub_cancel, jsScan_skip (tryWordCi pat rep) ts (some c) rest]
    simp [sub1, heq, lastD]
  | false =>
    rw [he] at hmatch
    simp only [Bool.false_eq_true, if_false] at hmatch
    rw [List.cons_append] at hmatch
    rw [List.cons_append, jsScan_cons_none _ _ _ _ hmatch,
      scan_word_interior pat rep ts c rest hcw htsw]
    have hne : toLowerJs c :: List.map toLowerJs ts ≠ pat := by
      simpa using beq_eq_false_iff_ne.mp he
    simp [sub1, hne, lastD]

theorem altToks_head {t : List Char} {ts : List (List Char)}
    (h : altToks (t :: ts) = true) : homog t = true := by
  cases ts with
  | nil => simpa [altToks] using h
  | cons t2 ts2 =>
    simp only [altToks, Bool.and_eq_true] at h
    exact h.1.1

theorem altToks_tail {t : List Char} {ts : List (List Char)}
    (h : altToks (t :: ts) = true) : altToks ts = true := by
  cases ts with
  | nil => rfl
  | cons t2 ts2 =>
    simp only [altToks, Bool.and_eq_true] at h
    exact h.2

theorem altToks_alt {t1 t2 : List Char} {ts : List (List Char)}
    (h : altToks (t1 :: t2 :: ts) = true) : tokClass t1 ≠ tokClass t2 := by
  simp only [altToks, Bool.and_eq_true, bne_iff_ne] at h
  exact h.1.2

theorem homog_ne {t : List Char} (h : homog t = true) : t ≠ [] := by
  intro heq
  rw [heq] at h
  simp [homog] at h

theorem homog_word {t : List Char} (h : homog t = true) (hc : tokClass t = true) :
    t.all isWordChar = true := by
  simp only [homog, Bool.and_eq_true, List.all_eq_true] at h ⊢
  intro c hcm
  have := h.2 c hcm
  rw [hc] at this
  simpa using this

theorem homog_sep {t : List Char} (h : homog t = true) (hc : tokClass t = false) :
    t.all (fun c => !isWordChar c) = true := by
  simp only [homog, Bool.and_eq_true, List.all_eq_true] at h ⊢
  intro c hcm
  have := h.2 c hcm
  rw [hc] at this
  simpa using this

theorem bOk_lastD :
    ∀ (t : List Char) (prev : Option Char), t.all (fun c => !isWordChar c) = true →
      (t = [] → bOkP prev = true) → bOkP (lastD t prev) = true := by
  intro t
  induction t with
  | nil => intro prev _ h; exact h rfl
  | cons c ts ih =>
    intro prev hall _
    simp only [List.all_cons, Bool.and_eq_true] at hall
    exact ih (some c) hall.2 (fun _ => by simpa [bOkP] using hall.1)

theorem sub1_sep (pat rep : List Char) (hp : pat ≠ []) (hpw : pat.all isWordChar = true)
    (t : List Char) (htne : t ≠ []) (hsep : t.all (fun c => !isWordChar c) = true) :
    sub1 pat rep t = t := by
  obtain ⟨c, ts, rfl⟩ : ∃ c ts, t = c :: ts := by
    cases t with
    | nil => exact absurd rfl htne
    | cons c ts => exact ⟨c, ts, rfl⟩
  obtain ⟨p, ps, rfl⟩ : ∃ p ps, pat = p :: ps := by
    cases pat with
    | nil => exact absurd rfl hp
    | cons p ps => exact ⟨p, ps, rfl⟩
  have hpword : isWordChar p = true := by
    simp only [List.all_cons, Bool.and_eq_true] at hpw; exact hpw.1
  have hc : isWordChar c = false := by
    simp only [List.all_cons, Bool.and_eq_true] at hsep
    simpa using hsep.1
  unfold sub1
  rw [List.map_cons, cons_beq_cons, lower_ne_word c p hc hpword]
  simp

theorem flatten_head_class :
    ∀ ts : List (List Char), altToks ts = true →
      isWordChar ((ts.flatten).getD 0 ' ') = tokClass (ts.headD []) := by
  intro ts halt
  cases ts with
  | nil => decide
  | cons t2 ts2 =>
    have hhom := altToks_head halt
    obtain ⟨d, g, rfl⟩ : ∃ d g, t2 = d :: g := by
      cases t2 with
      | nil => exact absurd rfl (homog_ne hhom)
      | cons d g => exact ⟨d, g, rfl⟩
    simp [tokClass, List.flatten_cons, List.headD]

theorem scan_tokens (pat rep : List Char) (hp : pat ≠ []) (hpw : pat.all isWordChar = true) :
    ∀ (ts : List (List Char)) (prev : Option Char), altToks ts = true →
      (tokClass (ts.headD []) = true → bOkP prev = true) →
      jsScan (tryWordCi pat rep) 0 prev ts.flatten = (ts.map (sub1 pat rep)).flatten := by
  intro ts
  induction ts with
  | nil => intro prev _ _; rfl
  | cons t ts ih =>
    intro prev halt hprev
    have hhom := altToks_head halt
    have htail := altToks_tail halt
    have htne := homog_ne hhom
    cases hcls : tokClass t with
    | true =>
      have htw := homog_word hhom hcls
      have hb : bOkP prev = true := hprev (by simpa [List.headD] using hcls)
      have hnext : tokClass (ts.headD []) = false := by
        cases ts with
        | nil => rfl
        | cons t2 ts2 =>
          have halt2 := altToks_alt halt
          rw [hcls] at halt2
          simp only [List.headD]
          cases h2 : tokClass t2 with
          | false => rfl
          | true => exact absurd h2.symm halt2
      have hrest : isWordChar ((ts.flatten).getD 0 ' ') = false := by
        rw [flatten_head_class ts htail]; exact hnext
      rw [List.flatten_cons,
        scan_word_tok pat rep hp hpw t ts.flatten prev htne htw hrest hb,
        ih (lastD t prev) htail (fun h => absurd (hnext ▸ h) (by simp))]
      rw [List.map_cons, List.flatten_cons]
    | false =>
      have hsep := homog_sep hhom hcls
      rw [List.flatten_cons, scan_sep_tok pat rep hp hpw t prev ts.flatten hsep,
        ih (lastD t prev) htail
          (fun _ => bOk_lastD t prev hsep (fun h => absurd h htne))]
      rw [List.map_cons, List.flatten_cons, sub1_sep pat rep hp hpw t htne hsep]

theorem homog_of_word (t : List Char) (htne : t ≠ []) (htw : t.all isWordChar = true) :
    homog t = true ∧ tokClass t = true := by
  obtain ⟨c, ts, rfl⟩ : ∃ c ts, t = c :: ts := by
    cases t with
    | nil => exact absurd rfl htne
    | cons c ts => exact ⟨c, ts, rfl⟩
  have hcw : isWordChar c = true := by
    simp only [List.all_cons, Bool.and_eq_true] at htw; exact htw.1
  refine ⟨?_, by simp [tokClass, hcw]⟩
  have hall : ∀ x ∈ c :: ts, (isWordChar x == tokClass (c :: ts)) = true := by
    intro x hx
    have hxw : isWordChar x = true := List.all_eq_true.mp htw x hx
    simp [tokClass, hcw, hxw]
  simp only [homog, List.isEmpty_cons, Bool.not_false, Bool.true_and]
  exact List.all_eq_true.mpr hall

theorem sub1_preserves (pat rep : List Char) (hp : pat ≠ []) (hpw : pat.all isWordChar = true)
    (hr : rep ≠ []) (hrw : rep.all isWordChar = true) (t : List Char)
    (h : homog t = true) :
    homog (sub1 pat rep t) = true ∧ tokClass (sub1 pat rep t) = tokClass t := by
  unfold sub1
  cases he : (t.map toLowerJs == pat) with
  | false => simp [he, h]
  | true =>
    simp only [he, if_true]
    have heq : t.map toLowerJs = pat := eq_of_beq he
    have h1 := homog_of_word rep hr hrw
    obtain ⟨c, ts, rfl⟩ : ∃ c ts, t = c :: ts := by
      cases t with
      | nil =>
        have : pat = [] := by simpa using heq.symm
        exact absurd this hp
      | cons c ts => exact ⟨c, ts, rfl⟩
    obtain ⟨p, ps, rfl⟩ : ∃ p ps, pat = p :: ps := by
      cases pat with
      | nil => exact absurd rfl hp
      | cons p ps => exact ⟨p, ps, rfl⟩
    have hpword : isWordChar p = true := by
      simp only [List.all_cons, Bool.and_eq_true] at hpw; exact hpw.1
    rw [List.map_cons] at heq
    injection heq with hhead _
    have hcw : isWordChar c = true :=
      word_of_lower_word c (by rw [hhead]; exact hpword)
    exact ⟨h1.1, by rw [h1.2]; simp [tokClass, hcw]⟩

theorem altToks_map (f : List Char → List Char)
    (hf : ∀ t, homog t = true → homog (f t) = true ∧ tokClass (f t) = tokClass t) :
    ∀ ts, altToks ts = true → altToks (ts.map f) = true := by
  intro ts
  induction ts with
  | nil => intro _; rfl
  | cons t1 ts ih =>
    intro h
    have hf1 := hf t1 (altToks_head h)
    cases ts with
    | nil => simpa [altToks] using hf1.1
    | cons t2 ts2 =>
      have htl := altToks_tail h
      have halt := altToks_alt h
      have hres := ih htl
      have hf2 := hf t2 (altToks_head htl)
      simp only [List.map_cons] at hres ⊢
      simp only [altToks, Bool.and_eq_true] at hres ⊢
      refine ⟨⟨hf1.1, ?_⟩, ?_⟩
      · rw [bne_iff_ne, hf1.2, hf2.2]
        exact halt
      · simpa [altToks] using hres

theorem replaceWordCi_foldl_tokens :
    ∀ (entries : List (List Char × List Char)),
      (entries.all fun kv =>
        (!kv.1.isEmpty && kv.1.all isWordChar) && (!kv.2.isEmpty && kv.2.all isWordChar)) =
          true →
      ∀ (ts : List (List Char)), altToks ts = true →
        entries.foldl (fun acc kv => replaceWordCi kv.1 kv.2 acc) ts.flatten =
          (ts.map fun t => entries.foldl (fun t kv => sub1 kv.1 kv.2 t) t).flatten := by
  intro entries
  induction entries with
  | nil => intro _ ts _; simp
  | cons kv entries ih =>
    intro hall ts halt
    simp only [List.all_cons, Bool.and_eq_true] at hall
    obtain ⟨⟨⟨h1, h2⟩, h3, h4⟩, hrest⟩ := hall
    have hp : kv.1 ≠ [] := by intro h; rw [h] at h1; simp at h1
    have hr : kv.2 ≠ [] := by intro h; rw [h] at h3; simp at h3
    simp only [List.foldl_cons]
    have hstep : replaceWordCi kv.1 kv.2 ts.flatten = (ts.map (sub1 kv.1 kv.2)).flatten :=
      scan_tokens kv.1 kv.2 hp h2 ts none halt (fun _ => rfl)
    rw [hstep]
    have halt2 : altToks (ts.map (sub1 kv.1 kv.2)) = true :=
      altToks_map _ (fun t ht => sub1_preserves kv.1 kv.2 hp h2 hr h4 t ht) ts halt
    rw [ih hrest (ts.map (sub1 kv.1 kv.2)) halt2, List.map_map]
    rfl

theorem splitB_flatten : ∀ l : List Char, (splitB l).flatten = l := by
  intro l
  induction l with
  | nil => rfl
  | cons c cs ih =>
    cases h : splitB cs with
    | nil =>
      have hcs : cs = [] := by rw [h] at ih; simpa using ih.symm
      subst hcs
      simp [splitB]
    | cons t gs =>
      rw [h] at ih
      cases t with
      | nil =>
        simp only [splitB, h]
        simp only [List.flatten_cons, List.nil_append] at ih ⊢
        simp [ih]
      | cons d g =>
        by_cases hcls : (isWordChar c == isWordChar d) = true
        · simp only [splitB, h, hcls, if_true]
          simp only [List.flatten_cons] at ih ⊢
          rw [← ih]
          rfl
        · simp only [splitB, h]
          rw [if_neg hcls]
          simp only [List.flatten_cons] at ih ⊢
          rw [← ih]
          rfl

theorem homog_cons_of (c d : Char) (g : List Char) (hh : homog (d :: g) = true)
    (hc : isWordChar c = isWordChar d) : homog (c :: d :: g) = true := by
  simp only [homog, List.isEmpty_cons, Bool.not_false, Bool.true_and,
    List.all_eq_true] at hh ⊢
  intro x hx
  rcases List.mem_cons.mp hx with rfl | hx2
  · simp [tokClass]
  · show (isWordChar x == isWordChar c) = true
    rw [hc]
    exact hh x hx2

theorem altToks_replace_head (t t2 : List Char) (ts : List (List Char))
    (h : altToks (t :: ts) = true) (hh : homog t2 = true)
    (hcl : tokClass t2 = tokClass t) : altToks (t2 :: ts) = true := by
  cases ts with
  | nil => simpa [altToks] using hh
  | cons t3 ts3 =>
    simp only [altToks, Bool.and_eq_true] at h ⊢
    refine ⟨⟨hh, ?_⟩, h.2⟩
    rw [bne_iff_ne, hcl]
    exact bne_iff_ne.mp h.1.2

theorem splitB_alt : ∀ l : List Char, altToks (splitB l) = true := by
  intro l
  induction l with
  | nil => rfl
  | cons c cs ih =>
    cases h : splitB cs with
    | nil =>
      simp only [splitB, h]
      simp [altToks, homog, tokClass]
    | cons t gs =>
      rw [h] at ih
      cases t with
      | nil => exact absurd (altToks_head ih) (by simp [homog])
      | cons d g =>
        have hhd : homog (d :: g) = true := altToks_head ih
        by_cases hcls : (isWordChar c == isWordChar d) = true
        · simp only [splitB, h, hcls, if_true]
          exact altToks_replace_head (d :: g) (c :: d :: g) gs ih
            (homog_cons_of c d g hhd (by simpa using hcls))
            (by show isWordChar c = isWordChar d; simpa using hcls)
        · simp only [splitB, h]
          rw [if_neg hcls]
          simp only [altToks, Bool.and_eq_true]
          refine ⟨⟨by simp [homog, tokClass], ?_⟩, ih⟩
          rw [bne_iff_ne]
          show isWordChar c ≠ tokClass (d :: g)
          intro hEq
          exact hcls (by simp [tokClass] at hEq; simp [hEq])

/-- The schwa pass acts tokenwise: on any text it maps each maximal word run
through `schwaToken` and leaves every non-word run unchanged. -/
theorem applySchwaRules_tokenwise (l : List Char) :
    applySchwaRules l = ((splitB l).map schwaToken).flatten := by
  have h := replaceWordCi_foldl_tokens SCHWA_DELETIONS (by decide) (splitB l) (splitB_alt l)
  rw [splitB_flatten l] at h
  exact h

theorem sub1_of_ne (pat rep t : List Char) (h : t.map toLowerJs ≠ pat) :
    sub1 pat rep t = t := by simp [sub1, h]

theorem sub1_of_eq (pat rep t : List Char) (h : t.map toLowerJs = pat) :
    sub1 pat rep t = rep := by simp [sub1, h]

theorem schwaToken_expand (t : List Char) :
    schwaToken t =
      sub1 "ayodhya".data "Ayodhya".data (sub1 "mathura".data "Mathura".data
        (sub1 "narayana".data "Narayan".data (sub1 "gopala".data "Gopal".data
        (sub1 "bharata".data "Bharat".data (sub1 "lakshmana".data "Lakshman".data
        (sub1 "mohana".data "Mohan".data (sub1 "ravana".data "Ravan".data
        (sub1 "hanumana".data "Hanuman".data (sub1 "arjuna".data "Arjun".data
        (sub1 "karna".data "Karan".data (sub1 "ganga".data "Ganga".data
        (sub1 "shiva".data "Shiv".data (sub1 "krishna".data "Krishna".data
        (sub1 "rama".data "Ram".data t)))))))))))))) := by
  simp only [schwaToken, SCHWA_DELETIONS, List.foldl_cons, List.foldl_nil]

set_option maxHeartbeats 1600000 in
/-- C8 (amended): the schwa pass acts tokenwise on the word/non-word run
decomposition of any input text, and every `\b`-delimited occurrence of an
exception-list name — in any casing, in any surrounding context — is rewritten
to the name's canonical full spelling: the trailing vowel is never dropped,
and an occurrence already in canonical casing is preserved byte-for-byte. -/
theorem schwa_exceptions_canonical (l tok name canon : List Char)
    (hname : (name, canon) ∈ [("krishna".data, "Krishna".data),
      ("ganga".data, "Ganga".data), ("mathura".data, "Mathura".data),
      ("ayodhya".data, "Ayodhya".data)])
    (htok : tok ∈ splitB l) (hlow : tok.map toLowerJs = name) :
    applySchwaRules l = ((splitB l).map schwaToken).flatten ∧
    schwaToken tok = canon ∧ (tok = canon → schwaToken tok = tok) := by
  have hmain : schwaToken tok = canon := by
    simp only [List.mem_cons, List.not_mem_nil, or_false] at hname
    rcases hname with h | h | h | h
    · have h1 : name = "krishna".data := congrArg Prod.fst h
      have h2 : canon = "Krishna".data := congrArg Prod.snd h
      subst h1; subst h2
      rw [schwaToken_expand,
        sub1_of_ne "rama".data "Ram".data tok (by rw [hlow]; decide),
        sub1_of_eq "krishna".data "Krishna".data tok hlow]
      decide
    · have h1 : name = "ganga".data := congrArg Prod.fst h
      have h2 : canon = "Ganga".data := congrArg Prod.snd h
      subst h1; subst h2
      rw [schwaToken_expand,
        sub1_of_ne "rama".data "Ram".data tok (by rw [hlow]; decide),
        sub1_of_ne "krishna".data "Krishna".data tok (by rw [hlow]; decide),
        sub1_of_ne "shiva".data "Shiv".data tok (by rw [hlow]; decide),
        sub1_of_eq "ganga".data "Ganga".data tok hlow]
      decide
    · have h1 : name = "mathura".data := congrArg Prod.fst h
      have h2 : canon = "Mathura".data := congrArg Prod.snd h
      subst h1; subst h2
      rw [schwaToken_expand,
        sub1_of_ne "rama".data "Ram".data tok (by rw [hlow]; decide),
        sub1_of_ne "krishna".data "Krishna".data tok (by rw [hlow]; decide),
        sub1_of_ne "shiva".data "Shiv".data tok (by rw [hlow]; decide),
        sub1_of_ne "ganga".data "Ganga".data tok (by rw [hlow]; decide),
        sub1_of_ne "karna".data "Karan".data tok (by rw [hlow]; decide),
        sub1_of_ne "arjuna".data "Arjun".data tok (by rw [hlow]; decide),
        sub1_of_ne "hanumana".data "Hanuman".data tok (by rw [hlow]; decide),
        sub1_of_ne "ravana".data "Ravan".data tok (by rw [hlow]; decide),
        sub1_of_ne "mohana".data "Mohan".data tok (by rw [hlow]; decide),
        sub1_of_ne "lakshmana".data "Lakshman".data tok (by rw [hlow]; decide),
        sub1_of_ne "bharata".data "Bharat".data tok (by rw [hlow]; decide),
        sub1_of_ne "gopala".data "Gopal".data tok (by rw [hlow]; decide),
        sub1_of_ne "narayana".data "Narayan".data tok (by rw [hlow]; decide),
        sub1_of_eq "mathura".data "Mathura".data tok hlow]
      decide
    · have h1 : name = "ayodhya".data := congrArg Prod.fst h
      have h2 : canon = "Ayodhya".data := congrArg Prod.snd h
      subst h1; subst h2
      rw [schwaToken_expand,
        sub1_of_ne "rama".data "Ram".data tok (by rw [hlow]; decide),
        sub1_of_ne "krishna".data "Krishna".data tok (by rw [hlow]; decide),
        sub1_of_ne "shiva".data "Shiv".data tok (by rw [hlow]; decide),
        sub1_of_ne "ganga".data "Ganga".data tok (by rw [hlow]; decide),
        sub1_of_ne "karna".data "Karan".data tok (by rw [hlow]; decide),
        sub1_of_ne "arjuna".data "Arjun".data tok (by rw [hlow]; decide),
        sub1_of_ne "hanumana".data "Hanuman".data tok (by rw [hlow]; decide),
        sub1_of_ne "ravana".data "Ravan".data tok (by rw [hlow]; decide),
        sub1_of_ne "mohana".data "Mohan".data tok (by rw [hlow]; decide),
        sub1_of_ne "lakshmana".data "Lakshman".data tok (by rw [hlow]; decide),
        sub1_of_ne "bharata".data "Bharat".data tok (by rw [hlow]; decide),
        sub1_of_ne "gopala".data "Gopal".data tok (by rw [hlow]; decide),
        sub1_of_ne "narayana".data "Narayan".data tok (by rw [hlow]; decide),
        sub1_of_ne "mathura".data "Mathura".data tok (by rw [hlow]; decide),
        sub1_of_eq "ayodhya".data "Ayodhya".data tok hlow]
  exact ⟨applySchwaRules_tokenwise l, hmain, fun h => hmain.trans h.symm⟩

set_option maxHeartbeats 1600000 in
theorem schwa_exceptions_canonical_witness :
    ((("krishna".data : List Char), ("Krishna".data : List Char)) ∈
      [("krishna".data, "Krishna".data), ("ganga".data, "Ganga".data),
       ("mathura".data, "Mathura".data), ("ayodhya".data, "Ayodhya".data)]) ∧
    ("kRiShNa".data ∈ splitB "jai kRiShNa!".data) ∧
    ("kRiShNa".data.map toLowerJs = "krishna".data) ∧
    (applySchwaRules "jai kRiShNa!".data =
      ((splitB "jai kRiShNa!".data).map schwaToken).flatten ∧
     schwaToken "kRiShNa".data = "Krishna".data ∧
     ("kRiShNa".data = "Krishna".data → schwaToken "kRiShNa".data = "kRiShNa".data)) :=
  ⟨by decide, by decide, by decide,
   schwa_exceptions_canonical "jai kRiShNa!".data "kRiShNa".data "krishna".data
     "Krishna".data (by decide) (by decide) (by decide)⟩
